import Mathlib

/-!
# Verification of the `mcli files duplicates` command

A shallow embedding of the duplicate-file scanner implemented in
`src/mcli/commands/files.py` (`duplicates`).  The filesystem is modelled as a
static tree of named entries; file contents are byte lists; the MD5 digest is
an arbitrary but fixed function `md5 : List Nat → Nat` supplied as a parameter
(the program uses it only as an equality oracle on full contents).

The Python command runs three sequential phases:
1. `os.walk` over the root, grouping statable files of size ≥ `min_size` into
   an insertion-ordered size map (`files_by_size`, a `defaultdict(list)`),
   emitting a warning per file whose `os.path.getsize` fails;
2. for each size group with more than one member, hashing every readable
   member into a single insertion-ordered hash map (`files_by_hash`) shared
   across all groups, emitting a warning per unreadable file;
3. reporting every hash bucket with more than one member as a duplicate
   cluster, or a "no duplicates" line when there is none.

`os.walk` is called with its default `onerror=None`, so a directory that
cannot be listed is skipped silently; warnings are printed to stderr the
moment they occur.  The model reproduces all of this, recording the
user-visible events in program order.
-/

set_option autoImplicit false

namespace McliFiles

/-- A path is its list of name components from the scan root. -/
abbrev FPath := List String

/-- What the scanner can observe about a regular file: its full byte content
(`os.path.getsize` returns its length), whether `stat` succeeds, and whether
it can be opened and fully read. -/
structure FileInfo where
  content : List Nat
  statable : Bool
  readable : Bool
deriving Repr, DecidableEq

/-- Byte size of a file, as returned by `os.path.getsize`. -/
def FileInfo.size (i : FileInfo) : Nat := i.content.length

/-- A directory tree: regular files and directories.  A directory carries a
`listable` flag: `os.scandir` on an unlistable directory raises, which
`os.walk` (with its default `onerror=None`) swallows silently. -/
inductive Entry where
  | file (name : String) (info : FileInfo)
  | dir (name : String) (listable : Bool) (entries : List Entry)
deriving Repr

/-- The regular files directly inside a directory, in listing order, paired
with their path (`os.path.join(root, filename)`). -/
def listFiles (base : FPath) (es : List Entry) : List (FPath × FileInfo) :=
  es.filterMap fun e =>
    match e with
    | Entry.file n i => some (base ++ [n], i)
    | Entry.dir _ _ _ => none

mutual

/-- The sequence of (path, file) pairs produced by iterating `os.walk(path)`
top-down: the files of each visited directory in listing order, then the
subtrees of its subdirectories in listing order.  An unlistable directory
contributes nothing (and raises no error). `os.walk` on a regular file yields
nothing. -/
def walkEntry (base : FPath) : Entry → List (FPath × FileInfo)
  | Entry.file _ _ => []
  | Entry.dir n listable es =>
    if listable then
      listFiles (base ++ [n]) es ++ walkSubdirs (base ++ [n]) es
    else []

/-- Walk the subdirectories among a list of entries, in listing order. -/
def walkSubdirs (base : FPath) : List Entry → List (FPath × FileInfo)
  | [] => []
  | e :: es => walkEntry base e ++ walkSubdirs base es

end

/-- The user-visible events of a scan, in emission order: the two kinds of
stderr warnings, a reported duplicate cluster (hash value and members), and
the final "No duplicate files found." line. -/
inductive Ev where
  | warnAccess (p : FPath)
  | warnRead (p : FPath)
  | cluster (h : Nat) (members : List (FPath × FileInfo))
  | noDup
deriving Repr, DecidableEq

/-- The effect of `buckets[k].append(v)` on an insertion-ordered map
represented as an association list: Python's `defaultdict(list)` keeps keys
in first-insertion order and appends to the value list of an existing key. -/
def addToBucket {α : Type} (bs : List (Nat × List α)) (k : Nat) (v : α) :
    List (Nat × List α) :=
  match bs with
  | [] => [(k, [v])]
  | (k₀, vs) :: rest =>
    if k₀ = k then (k₀, vs ++ [v]) :: rest
    else (k₀, vs) :: addToBucket rest k v

/-- Phase 1 (grouping), over the walked files in order: a statable file of
size ≥ `minSize` is appended to its size bucket; a file whose `getsize`
raises produces a `warnAccess` event; everything else is dropped. -/
def groupBySizeAux (minSize : Nat) (bs : List (Nat × List (FPath × FileInfo))) :
    List (FPath × FileInfo) → List (Nat × List (FPath × FileInfo)) × List Ev
  | [] => (bs, [])
  | (p, i) :: rest =>
    if i.statable then
      if minSize ≤ i.size then
        groupBySizeAux minSize (addToBucket bs i.size (p, i)) rest
      else
        groupBySizeAux minSize bs rest
    else
      let r := groupBySizeAux minSize bs rest
      (r.1, Ev.warnAccess p :: r.2)

/-- Phase 2, inner loop: hash every file of one size group into the shared
hash map; an unreadable file produces a `warnRead` event and is not added. -/
def hashFilesAux (md5 : List Nat → Nat) (hb : List (Nat × List (FPath × FileInfo))) :
    List (FPath × FileInfo) → List (Nat × List (FPath × FileInfo)) × List Ev
  | [] => (hb, [])
  | (p, i) :: rest =>
    if i.readable then
      hashFilesAux md5 (addToBucket hb (md5 i.content) (p, i)) rest
    else
      let r := hashFilesAux md5 hb rest
      (r.1, Ev.warnRead p :: r.2)

/-- Phase 2 (content resolution): every size group with more than one member
is hashed into the single `files_by_hash` map, which is shared across all
groups; singleton groups are skipped. -/
def hashGroupsAux (md5 : List Nat → Nat) (hb : List (Nat × List (FPath × FileInfo))) :
    List (Nat × List (FPath × FileInfo)) → List (Nat × List (FPath × FileInfo)) × List Ev
  | [] => (hb, [])
  | (_, fl) :: rest =>
    if 1 < fl.length then
      let r₁ := hashFilesAux md5 hb fl
      let r₂ := hashGroupsAux md5 r₁.1 rest
      (r₂.1, r₁.2 ++ r₂.2)
    else
      hashGroupsAux md5 hb rest

/-- Phase 3 (report): each hash bucket with more than one member is echoed as
a duplicate cluster, in map order; if none, "No duplicate files found." -/
def reportClusters (hb : List (Nat × List (FPath × FileInfo))) : List Ev :=
  let cs := hb.filterMap fun b =>
    if 1 < b.2.length then some (Ev.cluster b.1 b.2) else none
  if cs.isEmpty then [Ev.noDup] else cs

/-- The size map built by phase 1 from the walk of `root`. -/
def sizeBuckets (root : Entry) (minSize : Nat) :
    List (Nat × List (FPath × FileInfo)) :=
  (groupBySizeAux minSize [] (walkEntry [] root)).1

/-- The shared hash map built by phase 2. -/
def hashBuckets (md5 : List Nat → Nat) (root : Entry) (minSize : Nat) :
    List (Nat × List (FPath × FileInfo)) :=
  (hashGroupsAux md5 [] (sizeBuckets root minSize)).1

/-- The duplicate clusters a scan reports: the hash buckets with ≥ 2 members,
in map order. -/
def duplicateClusters (md5 : List Nat → Nat) (root : Entry) (minSize : Nat) :
    List (Nat × List (FPath × FileInfo)) :=
  (hashBuckets md5 root minSize).filter fun b => 1 < b.2.length

/-- The full event trace of one scan of `root`: phase 1 warnings, then phase 2
warnings, then the reported clusters (the Python command is strictly
sequential, and warnings are echoed to stderr the moment they occur). -/
def duplicatesRun (md5 : List Nat → Nat) (root : Entry) (minSize : Nat) : List Ev :=
  let g := groupBySizeAux minSize [] (walkEntry [] root)
  let h := hashGroupsAux md5 [] g.1
  g.2 ++ h.2 ++ reportClusters h.1

/-- Whether `os.access(path, R_OK)` holds for the scan root: listability for a
directory, readability for a regular file.  `click.Path(exists=True)` checks
existence and this flag before the command body runs. -/
def Entry.rootReadable : Entry → Bool
  | Entry.file _ i => i.readable
  | Entry.dir _ listable _ => listable

/-- The whole command including the CLI layer's validation of the root
argument: a missing (`none`) or unreadable root is rejected with a usage
error (exit code 2) before any scanning; otherwise the scan runs to
completion and the command exits 0. -/
def duplicatesCmd (md5 : List Nat → Nat) (root : Option Entry) (minSize : Nat) :
    Nat × List Ev :=
  match root with
  | none => (2, [])
  | some e =>
    if e.rootReadable then (0, duplicatesRun md5 e minSize) else (2, [])

/-- The paths of a list of walked or bucketed files. -/
def pathsOf (l : List (FPath × FileInfo)) : List FPath :=
  l.map Prod.fst

/-- The walk yields each file path at most once (no two files share a path). -/
abbrev pathsNodup (l : List (FPath × FileInfo)) : Prop :=
  (pathsOf l).Nodup

/-- The keys of an insertion-ordered bucket map. -/
def bucketKeys {α : Type} (bs : List (Nat × List α)) : List Nat :=
  bs.map Prod.fst

/-- Total number of occurrences of path `p` across all buckets of a map. -/
def bucketCountP (p : FPath) (bs : List (Nat × List (FPath × FileInfo))) : Nat :=
  (bs.map fun b => b.2.countP fun x => x.1 = p).sum

/-- Total number of entries whose key is `s` across a bucket map. -/
def bucketSizeCount (s : Nat) (bs : List (Nat × List (FPath × FileInfo))) : Nat :=
  (bs.map fun b => if b.1 = s then b.2.length else 0).sum

/-- The entry `x` occurs in some bucket of the map. -/
abbrev inBuckets (x : FPath × FileInfo) (bs : List (Nat × List (FPath × FileInfo))) : Prop :=
  ∃ b ∈ bs, x ∈ b.2

/-- Every bucket entry satisfies `P` of its bucket's key. -/
abbrev BucketsInv (P : Nat → FPath × FileInfo → Prop)
    (bs : List (Nat × List (FPath × FileInfo))) : Prop :=
  ∀ b ∈ bs, ∀ x ∈ b.2, P b.1 x

/-- A file the walker keeps for grouping: `getsize` succeeds and the size
meets the threshold. -/
def isCandidate (minSize : Nat) (x : FPath × FileInfo) : Bool :=
  x.2.statable && decide (minSize ≤ x.2.size)

/-- An event is one of the two stderr warnings. -/
def Ev.isWarn : Ev → Bool
  | Ev.warnAccess _ => true
  | Ev.warnRead _ => true
  | _ => false

/-- An event is a warning about path `p`. -/
def Ev.isWarnFor (p : FPath) : Ev → Bool
  | Ev.warnAccess q => q = p
  | Ev.warnRead q => q = p
  | _ => false

/-- An event is a reported duplicate cluster. -/
def Ev.isClusterEv : Ev → Bool
  | Ev.cluster _ _ => true
  | _ => false

/-- Modelled from the spec: the Content Resolver described in the design
document builds the fingerprint→file-list map *within each size group
separately* ("fingerprints are never compared across different size
groups"); this definition follows the spec's words, hashing each qualifying
group into its own fresh map and concatenating the groups' buckets in order,
to be compared with the source's single shared map. -/
def hashGroupsPerGroup (md5 : List Nat → Nat) :
    List (Nat × List (FPath × FileInfo)) → List (Nat × List (FPath × FileInfo))
  | [] => []
  | g :: rest =>
    if 1 < g.2.length then
      (hashFilesAux md5 [] g.2).1 ++ hashGroupsPerGroup md5 rest
    else
      hashGroupsPerGroup md5 rest

/-- Modelled from the spec: the duplicate clusters under the per-size-group
fingerprint maps — one cluster per fingerprint bucket with ≥ 2 members,
groups reported in order. -/
def duplicateClustersPerGroup (md5 : List Nat → Nat) (root : Entry) (minSize : Nat) :
    List (Nat × List (FPath × FileInfo)) :=
  (hashGroupsPerGroup md5 (sizeBuckets root minSize)).filter fun b => 1 < b.2.length

/-- A digest that never identifies contents of different lengths (the spec
assumes this when it calls the per-group map "semantically safe since equal
content implies equal size"). -/
abbrev SizeRespecting (md5 : List Nat → Nat) : Prop :=
  ∀ a b : List Nat, md5 a = md5 b → a.length = b.length

/-- A file that phase 2 attempts to hash: it sits in a size group with at
least two members and can be read. -/
abbrev IsHashedCandidate (root : Entry) (minSize : Nat) (x : FPath × FileInfo) : Prop :=
  (∃ g ∈ sizeBuckets root minSize, 1 < g.2.length ∧ x ∈ g.2) ∧ x.2.readable = true

/-! ### Concrete scan inputs used by counterexamples and witnesses -/

/-- Four readable files: two of size 1, two of size 2, so both size groups
are forwarded to hashing. -/
def cexRootC1 : Entry :=
  Entry.dir "r" true
    [Entry.file "a" ⟨[0], true, true⟩,
     Entry.file "b" ⟨[0], true, true⟩,
     Entry.file "c" ⟨[1, 1], true, true⟩,
     Entry.file "d" ⟨[1, 2], true, true⟩]

/-- Two size groups whose members collide under a first-byte digest. -/
def cexRootC2 : Entry :=
  Entry.dir "r" true
    [Entry.file "a" ⟨[5], true, true⟩,
     Entry.file "b" ⟨[5], true, true⟩,
     Entry.file "c" ⟨[5, 1], true, true⟩,
     Entry.file "d" ⟨[5, 2], true, true⟩]

/-- An unlistable subdirectory next to two readable duplicate siblings. -/
def cexRootC3 : Entry :=
  Entry.dir "r" true
    [Entry.dir "locked" false [Entry.file "hidden" ⟨[0, 0], true, true⟩],
     Entry.file "sib" ⟨[1], true, true⟩,
     Entry.file "sib2" ⟨[1], true, true⟩]

/-- An unstatable file listed before a readable duplicate pair. -/
def cexRootC5 : Entry :=
  Entry.dir "r" true
    [Entry.file "u" ⟨[9], false, true⟩,
     Entry.file "a" ⟨[3], true, true⟩,
     Entry.file "b" ⟨[3], true, true⟩]

/-- A single file of size 0 whose `stat` fails. -/
def cexRootC9 : Entry :=
  Entry.dir "r" true [Entry.file "u" ⟨[], false, true⟩]

/-- Scenario A of the spec: `a.txt` and `b.txt` hold the same 10 bytes,
`c.txt` holds 10 different bytes. -/
def contentX : List Nat := List.replicate 10 88

/-- The 10-byte content of `c.txt` in Scenario A. -/
def contentY : List Nat := List.replicate 10 89

/-- The Scenario A directory. -/
def scenarioARoot : Entry :=
  Entry.dir "d" true
    [Entry.file "a.txt" ⟨contentX, true, true⟩,
     Entry.file "b.txt" ⟨contentX, true, true⟩,
     Entry.file "c.txt" ⟨contentY, true, true⟩]

/-- A readable duplicate pair plus an unreadable file of the same size, for
witnesses about read failures. -/
def witRootC6 : Entry :=
  Entry.dir "r" true
    [Entry.file "bad" ⟨[7], true, false⟩,
     Entry.file "a" ⟨[7], true, true⟩,
     Entry.file "b" ⟨[7], true, true⟩]

/-- A tree with one unstatable file and one statable file of unique size. -/
def witRootC3 : Entry :=
  Entry.dir "r" true
    [Entry.file "gone" ⟨[1, 2, 3], false, true⟩,
     Entry.file "ok" ⟨[4], true, true⟩]

/-- A file of unique size next to a duplicate pair of another size. -/
def witRootC8 : Entry :=
  Entry.dir "r" true
    [Entry.file "solo" ⟨[1, 2, 3], true, true⟩,
     Entry.file "a" ⟨[4], true, true⟩,
     Entry.file "b" ⟨[4], true, true⟩]

/-- A statable 1-byte file, below a 1024-byte threshold. -/
def witRootC9 : Entry :=
  Entry.dir "r" true
    [Entry.file "tiny" ⟨[5], true, true⟩,
     Entry.file "a" ⟨[6, 6], true, true⟩,
     Entry.file "b" ⟨[6, 6], true, true⟩]

/-- A digest reading only the first byte (collides across sizes). -/
def headDigest (c : List Nat) : Nat := c.headD 0

/-- The length digest: trivially size-respecting. -/
def lenDigest (c : List Nat) : Nat := c.length

/-! ### Lemmas about `addToBucket` -/

theorem bucketKeys_addToBucket {α : Type} (bs : List (Nat × List α)) (k : Nat) (v : α) :
    bucketKeys (addToBucket bs k v) =
      if k ∈ bucketKeys bs then bucketKeys bs else bucketKeys bs ++ [k] := by
  induction bs with
  | nil => simp [addToBucket, bucketKeys]
  | cons b rest ih =>
    obtain ⟨k₀, vs⟩ := b
    by_cases hk : k₀ = k
    · subst hk
      simp [addToBucket, bucketKeys]
    · simp only [bucketKeys, addToBucket, if_neg hk, List.map_cons] at ih ⊢
      rw [ih]
      simp only [List.mem_cons]
      by_cases hmem : k ∈ rest.map Prod.fst
      · simp [hmem, Ne.symm hk]
      · simp [hmem, Ne.symm hk]

theorem bucketsInv_addToBucket {P : Nat → FPath × FileInfo → Prop}
    {bs : List (Nat × List (FPath × FileInfo))} {k : Nat} {v : FPath × FileInfo}
    (hinv : BucketsInv P bs) (hv : P k v) : BucketsInv P (addToBucket bs k v) := by
  induction bs with
  | nil =>
    intro b hb x hx
    simp only [addToBucket, List.mem_singleton] at hb
    subst hb
    simp only [List.mem_singleton] at hx
    subst hx
    exact hv
  | cons b₀ rest ih =>
    obtain ⟨k₀, vs⟩ := b₀
    intro b hb x hx
    by_cases hk : k₀ = k
    · subst hk
      simp only [addToBucket, if_pos, List.mem_cons, eq_self_iff_true, if_true] at hb
      rcases hb with hb | hb
      · subst hb
        simp only [List.mem_append, List.mem_singleton] at hx
        rcases hx with hx | hx
        · exact hinv (k₀, vs) (List.mem_cons_self _ _) x hx
        · subst hx; exact hv
      · exact hinv b (List.mem_cons_of_mem _ hb) x hx
    · simp only [addToBucket, if_neg hk, List.mem_cons] at hb
      rcases hb with hb | hb
      · subst hb
        exact hinv (k₀, vs) (List.mem_cons_self _ _) x hx
      · exact ih (fun b' hb' => hinv b' (List.mem_cons_of_mem _ hb')) b hb x hx

theorem inBuckets_addToBucket_mono {x : FPath × FileInfo}
    {bs : List (Nat × List (FPath × FileInfo))} {k : Nat} {v : FPath × FileInfo}
    (h : inBuckets x bs) : inBuckets x (addToBucket bs k v) := by
  induction bs with
  | nil =>
    obtain ⟨b, hb, _⟩ := h
    exact absurd hb (List.not_mem_nil b)
  | cons b₀ rest ih =>
    obtain ⟨k₀, vs⟩ := b₀
    obtain ⟨b, hb, hx⟩ := h
    by_cases hk : k₀ = k
    · subst hk
      rcases List.mem_cons.mp hb with hb | hb
      · subst hb
        exact ⟨(k₀, vs ++ [v]), by simp [addToBucket], by simp [hx]⟩
      · exact ⟨b, by simp [addToBucket, List.mem_cons_of_mem _ hb], hx⟩
    · rcases List.mem_cons.mp hb with hb | hb
      · subst hb
        exact ⟨(k₀, vs), by simp [addToBucket, hk], hx⟩
      · obtain ⟨b', hb', hx'⟩ := ih ⟨b, hb, hx⟩
        exact ⟨b', by simp [addToBucket, hk, List.mem_cons_of_mem _ hb'], hx'⟩

theorem inBuckets_addToBucket_self (bs : List (Nat × List (FPath × FileInfo)))
    (k : Nat) (v : FPath × FileInfo) : inBuckets v (addToBucket bs k v) := by
  induction bs with
  | nil => exact ⟨(k, [v]), by simp [addToBucket], by simp⟩
  | cons b₀ rest ih =>
    obtain ⟨k₀, vs⟩ := b₀
    by_cases hk : k₀ = k
    · subst hk
      exact ⟨(k₀, vs ++ [v]), by simp [addToBucket], by simp⟩
    · obtain ⟨b', hb', hx'⟩ := ih
      exact ⟨b', by simp [addToBucket, hk, List.mem_cons_of_mem _ hb'], hx'⟩

theorem inBuckets_addToBucket_elim {x : FPath × FileInfo}
    {bs : List (Nat × List (FPath × FileInfo))} {k : Nat} {v : FPath × FileInfo}
    (h : inBuckets x (addToBucket bs k v)) : inBuckets x bs ∨ x = v := by
  induction bs with
  | nil =>
    obtain ⟨b, hb, hx⟩ := h
    simp only [addToBucket, List.mem_singleton] at hb
    subst hb
    simp only [List.mem_singleton] at hx
    exact Or.inr hx
  | cons b₀ rest ih =>
    obtain ⟨k₀, vs⟩ := b₀
    obtain ⟨b, hb, hx⟩ := h
    by_cases hk : k₀ = k
    · subst hk
      simp only [addToBucket, if_pos, List.mem_cons, eq_self_iff_true, if_true] at hb
      rcases hb with hb | hb
      · subst hb
        simp only [List.mem_append, List.mem_singleton] at hx
        rcases hx with hx | hx
        · exact Or.inl ⟨(k₀, vs), List.mem_cons_self _ _, hx⟩
        · exact Or.inr hx
      · exact Or.inl ⟨b, List.mem_cons_of_mem _ hb, hx⟩
    · simp only [addToBucket, if_neg hk, List.mem_cons] at hb
      rcases hb with hb | hb
      · subst hb
        exact Or.inl ⟨(k₀, vs), List.mem_cons_self _ _, hx⟩
      · rcases ih ⟨b, hb, hx⟩ with h' | h'
        · obtain ⟨b', hb', hx'⟩ := h'
          exact Or.inl ⟨b', List.mem_cons_of_mem _ hb', hx'⟩
        · exact Or.inr h'

theorem bucketCountP_addToBucket (p : FPath) (bs : List (Nat × List (FPath × FileInfo)))
    (k : Nat) (v : FPath × FileInfo) :
    bucketCountP p (addToBucket bs k v) =
      bucketCountP p bs + (if v.1 = p then 1 else 0) := by
  induction bs with
  | nil => simp [addToBucket, bucketCountP, List.countP_cons]
  | cons b₀ rest ih =>
    obtain ⟨k₀, vs⟩ := b₀
    by_cases hk : k₀ = k
    · subst hk
      simp only [addToBucket, if_pos, eq_self_iff_true, if_true, bucketCountP, List.map_cons,
        List.sum_cons, List.countP_append, List.countP_cons, List.countP_nil]
      by_cases hp : v.1 = p <;> simp [hp] <;> omega
    · simp only [addToBucket, if_neg hk, bucketCountP, List.map_cons, List.sum_cons] at ih ⊢
      omega

theorem bucketSizeCount_addToBucket (s : Nat) (bs : List (Nat × List (FPath × FileInfo)))
    (k : Nat) (v : FPath × FileInfo) :
    bucketSizeCount s (addToBucket bs k v) =
      bucketSizeCount s bs + (if k = s then 1 else 0) := by
  induction bs with
  | nil => by_cases hs : k = s <;> simp [addToBucket, bucketSizeCount, hs]
  | cons b₀ rest ih =>
    obtain ⟨k₀, vs⟩ := b₀
    by_cases hk : k₀ = k
    · subst hk
      by_cases hs : k₀ = s <;>
        simp [addToBucket, bucketSizeCount, hs] <;> omega
    · simp only [addToBucket, if_neg hk, bucketSizeCount, List.map_cons, List.sum_cons] at ih ⊢
      omega

theorem length_le_bucketSizeCount {b : Nat × List (FPath × FileInfo)}
    {bs : List (Nat × List (FPath × FileInfo))} (hb : b ∈ bs) {s : Nat} (hk : b.1 = s) :
    b.2.length ≤ bucketSizeCount s bs := by
  induction bs with
  | nil => simp at hb
  | cons b₀ rest ih =>
    rcases List.mem_cons.mp hb with h | h
    · subst h
      simp [bucketSizeCount, hk]
    · have h' := ih h
      simp only [bucketSizeCount, List.map_cons, List.sum_cons] at h' ⊢
      omega

/-! ### Lemmas about phase 1 (`groupBySizeAux`) -/

theorem groupBySizeAux_snd (minSize : Nat) :
    ∀ (l : List (FPath × FileInfo)) (bs : List (Nat × List (FPath × FileInfo))),
      (groupBySizeAux minSize bs l).2 =
        (l.filter fun x => !x.2.statable).map fun x => Ev.warnAccess x.1 := by
  intro l
  induction l with
  | nil => intro bs; simp [groupBySizeAux]
  | cons x rest ih =>
    intro bs
    obtain ⟨p, i⟩ := x
    by_cases hs : i.statable
    · by_cases hm : minSize ≤ i.size
      · simp [groupBySizeAux, hs, hm, ih]
      · simp [groupBySizeAux, hs, hm, ih]
    · simp [groupBySizeAux, hs, ih]

theorem groupBySizeAux_fst_invP (minSize : Nat) {P : Nat → FPath × FileInfo → Prop} :
    ∀ (l : List (FPath × FileInfo)) (bs : List (Nat × List (FPath × FileInfo))),
      BucketsInv P bs → (∀ x ∈ l, isCandidate minSize x = true → P x.2.size x) →
      BucketsInv P (groupBySizeAux minSize bs l).1 := by
  intro l
  induction l with
  | nil => intro bs hinv _; exact hinv
  | cons x rest ih =>
    intro bs hinv hl
    obtain ⟨p, i⟩ := x
    by_cases hs : i.statable
    · by_cases hm : minSize ≤ i.size
      · have hc : isCandidate minSize (p, i) = true := by
          simp [isCandidate, hs, hm]
        simp only [groupBySizeAux, if_pos hs, if_pos hm]
        exact ih (addToBucket bs i.size (p, i))
          (bucketsInv_addToBucket hinv (hl (p, i) (List.mem_cons_self _ _) hc))
          (fun y hy hcy => hl y (List.mem_cons_of_mem _ hy) hcy)
      · simp only [groupBySizeAux, if_pos hs, if_neg hm]
        exact ih bs hinv fun y hy hcy => hl y (List.mem_cons_of_mem _ hy) hcy
    · simp only [groupBySizeAux, if_neg hs]
      exact ih bs hinv fun y hy hcy => hl y (List.mem_cons_of_mem _ hy) hcy

theorem groupBySizeAux_mono (minSize : Nat) :
    ∀ (l : List (FPath × FileInfo)) (bs : List (Nat × List (FPath × FileInfo)))
      (x : FPath × FileInfo), inBuckets x bs → inBuckets x (groupBySizeAux minSize bs l).1 := by
  intro l
  induction l with
  | nil => intro bs x h; exact h
  | cons y rest ih =>
    intro bs x h
    obtain ⟨p, i⟩ := y
    by_cases hs : i.statable
    · by_cases hm : minSize ≤ i.size
      · simp only [groupBySizeAux, if_pos hs, if_pos hm]
        exact ih _ x (inBuckets_addToBucket_mono h)
      · simp only [groupBySizeAux, if_pos hs, if_neg hm]
        exact ih bs x h
    · simp only [groupBySizeAux, if_neg hs]
      exact ih bs x h

theorem groupBySizeAux_mem_elim (minSize : Nat) :
    ∀ (l : List (FPath × FileInfo)) (bs : List (Nat × List (FPath × FileInfo)))
      (x : FPath × FileInfo), inBuckets x (groupBySizeAux minSize bs l).1 →
      inBuckets x bs ∨ (x ∈ l ∧ isCandidate minSize x = true) := by
  intro l
  induction l with
  | nil => intro bs x h; exact Or.inl h
  | cons y rest ih =>
    intro bs x h
    obtain ⟨p, i⟩ := y
    by_cases hs : i.statable
    · by_cases hm : minSize ≤ i.size
      · simp only [groupBySizeAux, if_pos hs, if_pos hm] at h
        rcases ih _ x h with h' | h'
        · rcases inBuckets_addToBucket_elim h' with h'' | h''
          · exact Or.inl h''
          · subst h''
            exact Or.inr ⟨List.mem_cons_self _ _, by simp [isCandidate, hs, hm]⟩
        · exact Or.inr ⟨List.mem_cons_of_mem _ h'.1, h'.2⟩
      · simp only [groupBySizeAux, if_pos hs, if_neg hm] at h
        rcases ih bs x h with h' | h'
        · exact Or.inl h'
        · exact Or.inr ⟨List.mem_cons_of_mem _ h'.1, h'.2⟩
    · simp only [groupBySizeAux, if_neg hs] at h
      rcases ih bs x h with h' | h'
      · exact Or.inl h'
      · exact Or.inr ⟨List.mem_cons_of_mem _ h'.1, h'.2⟩

theorem groupBySizeAux_complete (minSize : Nat) :
    ∀ (l : List (FPath × FileInfo)) (bs : List (Nat × List (FPath × FileInfo)))
      (x : FPath × FileInfo), x ∈ l → isCandidate minSize x = true →
      inBuckets x (groupBySizeAux minSize bs l).1 := by
  intro l
  induction l with
  | nil => intro bs x h; exact absurd h (List.not_mem_nil x)
  | cons y rest ih =>
    intro bs x hmem hc
    obtain ⟨p, i⟩ := y
    rcases List.mem_cons.mp hmem with hx | hx
    · have hs : i.statable = true := by
        rw [hx] at hc; simp [isCandidate] at hc; exact hc.1
      have hm : minSize ≤ i.size := by
        rw [hx] at hc; simp [isCandidate] at hc; exact hc.2
      simp only [groupBySizeAux, if_pos hs, if_pos hm]
      rw [hx]
      exact groupBySizeAux_mono minSize rest _ _ (inBuckets_addToBucket_self bs i.size (p, i))
    · by_cases hs : i.statable
      · by_cases hm : minSize ≤ i.size
        · simp only [groupBySizeAux, if_pos hs, if_pos hm]
          exact ih _ x hx hc
        · simp only [groupBySizeAux, if_pos hs, if_neg hm]
          exact ih bs x hx hc
      · simp only [groupBySizeAux, if_neg hs]
        exact ih bs x hx hc

theorem groupBySizeAux_countP (minSize : Nat) (p : FPath) :
    ∀ (l : List (FPath × FileInfo)) (bs : List (Nat × List (FPath × FileInfo))),
      bucketCountP p (groupBySizeAux minSize bs l).1 =
        bucketCountP p bs + l.countP fun x => isCandidate minSize x && decide (x.1 = p) := by
  intro l
  induction l with
  | nil => intro bs; simp [groupBySizeAux]
  | cons y rest ih =>
    intro bs
    obtain ⟨q, i⟩ := y
    by_cases hs : i.statable
    · by_cases hm : minSize ≤ i.size
      · have hc : isCandidate minSize (q, i) = true := by simp [isCandidate, hs, hm]
        simp only [groupBySizeAux, if_pos hs, if_pos hm, ih, bucketCountP_addToBucket,
          List.countP_cons, hc]
        by_cases hp : q = p <;> simp [hp] <;> omega
      · have hc : isCandidate minSize (q, i) = false := by simp [isCandidate, hm]
        simp only [groupBySizeAux, if_pos hs, if_neg hm, ih, List.countP_cons, hc]
        simp
    · have hc : isCandidate minSize (q, i) = false := by simp [isCandidate, hs]
      simp only [groupBySizeAux, if_neg hs, ih, List.countP_cons, hc]
      simp

theorem groupBySizeAux_sizeCount (minSize : Nat) (s : Nat) :
    ∀ (l : List (FPath × FileInfo)) (bs : List (Nat × List (FPath × FileInfo))),
      bucketSizeCount s (groupBySizeAux minSize bs l).1 =
        bucketSizeCount s bs + l.countP fun x => isCandidate minSize x && decide (x.2.size = s) := by
  intro l
  induction l with
  | nil => intro bs; simp [groupBySizeAux]
  | cons y rest ih =>
    intro bs
    obtain ⟨q, i⟩ := y
    by_cases hs : i.statable
    · by_cases hm : minSize ≤ i.size
      · have hc : isCandidate minSize (q, i) = true := by simp [isCandidate, hs, hm]
        simp only [groupBySizeAux, if_pos hs, if_pos hm, ih, bucketSizeCount_addToBucket,
          List.countP_cons, hc]
        by_cases hsz : i.size = s <;> simp [hsz] <;> omega
      · have hc : isCandidate minSize (q, i) = false := by simp [isCandidate, hm]
        simp only [groupBySizeAux, if_pos hs, if_neg hm, ih, List.countP_cons, hc]
        simp
    · have hc : isCandidate minSize (q, i) = false := by simp [isCandidate, hs]
      simp only [groupBySizeAux, if_neg hs, ih, List.countP_cons, hc]
      simp

theorem groupBySizeAux_keysNodup (minSize : Nat) :
    ∀ (l : List (FPath × FileInfo)) (bs : List (Nat × List (FPath × FileInfo))),
      (bucketKeys bs).Nodup → (bucketKeys (groupBySizeAux minSize bs l).1).Nodup := by
  intro l
  induction l with
  | nil => intro bs h; simpa [groupBySizeAux] using h
  | cons y rest ih =>
    intro bs h
    obtain ⟨q, i⟩ := y
    by_cases hs : i.statable
    · by_cases hm : minSize ≤ i.size
      · simp only [groupBySizeAux, if_pos hs, if_pos hm]
        refine ih _ ?_
        rw [bucketKeys_addToBucket]
        by_cases hmem : i.size ∈ bucketKeys bs
        · simpa [hmem] using h
        · simp only [if_neg hmem]
          rw [List.nodup_append]
          refine ⟨h, List.nodup_singleton _, ?_⟩
          intro y hy hy2
          simp only [List.mem_singleton] at hy2
          subst hy2
          exact hmem hy
      · simp only [groupBySizeAux, if_pos hs, if_neg hm]
        exact ih bs h
    · simp only [groupBySizeAux, if_neg hs]
      exact ih bs h

/-! ### Lemmas about phase 2 (`hashFilesAux`, `hashGroupsAux`) -/

theorem hashFilesAux_snd (md5 : List Nat → Nat) :
    ∀ (l : List (FPath × FileInfo)) (hb : List (Nat × List (FPath × FileInfo))),
      (hashFilesAux md5 hb l).2 =
        (l.filter fun x => !x.2.readable).map fun x => Ev.warnRead x.1 := by
  intro l
  induction l with
  | nil => intro hb; simp [hashFilesAux]
  | cons x rest ih =>
    intro hb
    obtain ⟨p, i⟩ := x
    by_cases hr : i.readable
    · simp [hashFilesAux, hr, ih]
    · simp [hashFilesAux, hr, ih]

theorem hashFilesAux_fst_invP (md5 : List Nat → Nat) {P : Nat → FPath × FileInfo → Prop} :
    ∀ (l : List (FPath × FileInfo)) (hb : List (Nat × List (FPath × FileInfo))),
      BucketsInv P hb → (∀ x ∈ l, x.2.readable = true → P (md5 x.2.content) x) →
      BucketsInv P (hashFilesAux md5 hb l).1 := by
  intro l
  induction l with
  | nil => intro hb hinv _; exact hinv
  | cons x rest ih =>
    intro hb hinv hl
    obtain ⟨p, i⟩ := x
    by_cases hr : i.readable
    · simp only [hashFilesAux, if_pos hr]
      exact ih _ (bucketsInv_addToBucket hinv (hl (p, i) (List.mem_cons_self _ _) hr))
        (fun y hy hry => hl y (List.mem_cons_of_mem _ hy) hry)
    · simp only [hashFilesAux, if_neg hr]
      exact ih hb hinv fun y hy hry => hl y (List.mem_cons_of_mem _ hy) hry

theorem hashFilesAux_mono (md5 : List Nat → Nat) :
    ∀ (l : List (FPath × FileInfo)) (hb : List (Nat × List (FPath × FileInfo)))
      (x : FPath × FileInfo), inBuckets x hb → inBuckets x (hashFilesAux md5 hb l).1 := by
  intro l
  induction l with
  | nil => intro hb x h; exact h
  | cons y rest ih =>
    intro hb x h
    obtain ⟨p, i⟩ := y
    by_cases hr : i.readable
    · simp only [hashFilesAux, if_pos hr]
      exact ih _ x (inBuckets_addToBucket_mono h)
    · simp only [hashFilesAux, if_neg hr]
      exact ih hb x h

theorem hashFilesAux_mem_elim (md5 : List Nat → Nat) :
    ∀ (l : List (FPath × FileInfo)) (hb : List (Nat × List (FPath × FileInfo)))
      (x : FPath × FileInfo), inBuckets x (hashFilesAux md5 hb l).1 →
      inBuckets x hb ∨ (x ∈ l ∧ x.2.readable = true) := by
  intro l
  induction l with
  | nil => intro hb x h; exact Or.inl h
  | cons y rest ih =>
    intro hb x h
    obtain ⟨p, i⟩ := y
    by_cases hr : i.readable
    · simp only [hashFilesAux, if_pos hr] at h
      rcases ih _ x h with h' | h'
      · rcases inBuckets_addToBucket_elim h' with h'' | h''
        · exact Or.inl h''
        · subst h''
          exact Or.inr ⟨List.mem_cons_self _ _, hr⟩
      · exact Or.inr ⟨List.mem_cons_of_mem _ h'.1, h'.2⟩
    · simp only [hashFilesAux, if_neg hr] at h
      rcases ih hb x h with h' | h'
      · exact Or.inl h'
      · exact Or.inr ⟨List.mem_cons_of_mem _ h'.1, h'.2⟩

theorem hashFilesAux_complete (md5 : List Nat → Nat) :
    ∀ (l : List (FPath × FileInfo)) (hb : List (Nat × List (FPath × FileInfo)))
      (x : FPath × FileInfo), x ∈ l → x.2.readable = true →
      inBuckets x (hashFilesAux md5 hb l).1 := by
  intro l
  induction l with
  | nil => intro hb x h; exact absurd h (List.not_mem_nil x)
  | cons y rest ih =>
    intro hb x hmem hr
    obtain ⟨p, i⟩ := y
    rcases List.mem_cons.mp hmem with hx | hx
    · have hri : i.readable = true := by rw [hx] at hr; exact hr
      simp only [hashFilesAux, if_pos hri]
      rw [hx]
      exact hashFilesAux_mono md5 rest _ _ (inBuckets_addToBucket_self hb (md5 i.content) (p, i))
    · by_cases hri : i.readable
      · simp only [hashFilesAux, if_pos hri]
        exact ih _ x hx hr
      · simp only [hashFilesAux, if_neg hri]
        exact ih hb x hx hr

theorem hashFilesAux_countP (md5 : List Nat → Nat) (p : FPath) :
    ∀ (l : List (FPath × FileInfo)) (hb : List (Nat × List (FPath × FileInfo))),
      bucketCountP p (hashFilesAux md5 hb l).1 =
        bucketCountP p hb + l.countP fun x => x.2.readable && decide (x.1 = p) := by
  intro l
  induction l with
  | nil => intro hb; simp [hashFilesAux]
  | cons y rest ih =>
    intro hb
    obtain ⟨q, i⟩ := y
    by_cases hr : i.readable
    · simp only [hashFilesAux, if_pos hr]
      rw [ih, bucketCountP_addToBucket]
      simp only [List.countP_cons, hr]
      by_cases hp : q = p <;> simp [hp] <;> omega
    · have hr' : i.readable = false := by simpa using hr
      simp only [hashFilesAux, if_neg hr]
      rw [ih]
      simp [List.countP_cons, hr']

theorem hashGroupsAux_snd_mem_elim (md5 : List Nat → Nat) :
    ∀ (gs : List (Nat × List (FPath × FileInfo))) (hb : List (Nat × List (FPath × FileInfo)))
      (e : Ev), e ∈ (hashGroupsAux md5 hb gs).2 →
      ∃ g ∈ gs, ∃ x ∈ g.2, x.2.readable = false ∧ e = Ev.warnRead x.1 := by
  intro gs
  induction gs with
  | nil => intro hb e h; simp [hashGroupsAux] at h
  | cons g rest ih =>
    intro hb e h
    obtain ⟨s, fl⟩ := g
    by_cases hlen : 1 < fl.length
    · simp only [hashGroupsAux, if_pos hlen, List.mem_append] at h
      rcases h with h | h
      · rw [hashFilesAux_snd] at h
        simp only [List.mem_map, List.mem_filter] at h
        obtain ⟨x, ⟨hxfl, hxr⟩, hxe⟩ := h
        exact ⟨(s, fl), List.mem_cons_self _ _, x, hxfl, by simpa using hxr, hxe.symm⟩
      · obtain ⟨g', hg', x, hx, hxr, hxe⟩ := ih _ e h
        exact ⟨g', List.mem_cons_of_mem _ hg', x, hx, hxr, hxe⟩
    · simp only [hashGroupsAux, if_neg hlen] at h
      obtain ⟨g', hg', x, hx, hxr, hxe⟩ := ih hb e h
      exact ⟨g', List.mem_cons_of_mem _ hg', x, hx, hxr, hxe⟩

theorem hashGroupsAux_warn_mem (md5 : List Nat → Nat) :
    ∀ (gs : List (Nat × List (FPath × FileInfo))) (hb : List (Nat × List (FPath × FileInfo)))
      (g : Nat × List (FPath × FileInfo)), g ∈ gs → 1 < g.2.length →
      ∀ x ∈ g.2, x.2.readable = false → Ev.warnRead x.1 ∈ (hashGroupsAux md5 hb gs).2 := by
  intro gs
  induction gs with
  | nil => intro hb g h; exact absurd h (List.not_mem_nil g)
  | cons g₀ rest ih =>
    intro hb g hg hlen x hx hxr
    obtain ⟨s, fl⟩ := g₀
    rcases List.mem_cons.mp hg with h | h
    · subst h
      simp only [hashGroupsAux, if_pos hlen, List.mem_append]
      left
      rw [hashFilesAux_snd]
      simp only [List.mem_map, List.mem_filter]
      exact ⟨x, ⟨hx, by simp [hxr]⟩, rfl⟩
    · by_cases hl : 1 < fl.length
      · simp only [hashGroupsAux, if_pos hl, List.mem_append]
        exact Or.inr (ih _ g h hlen x hx hxr)
      · simp only [hashGroupsAux, if_neg hl]
        exact ih hb g h hlen x hx hxr

theorem hashGroupsAux_fst_invP (md5 : List Nat → Nat) {P : Nat → FPath × FileInfo → Prop} :
    ∀ (gs : List (Nat × List (FPath × FileInfo))) (hb : List (Nat × List (FPath × FileInfo))),
      BucketsInv P hb → (∀ g ∈ gs, ∀ x ∈ g.2, x.2.readable = true → P (md5 x.2.content) x) →
      BucketsInv P (hashGroupsAux md5 hb gs).1 := by
  intro gs
  induction gs with
  | nil => intro hb hinv _; exact hinv
  | cons g rest ih =>
    intro hb hinv hgs
    obtain ⟨s, fl⟩ := g
    by_cases hlen : 1 < fl.length
    · simp only [hashGroupsAux, if_pos hlen]
      exact ih _ (hashFilesAux_fst_invP md5 fl hb hinv
          (fun x hx hxr => hgs (s, fl) (List.mem_cons_self _ _) x hx hxr))
        (fun g' hg' x hx hxr => hgs g' (List.mem_cons_of_mem _ hg') x hx hxr)
    · simp only [hashGroupsAux, if_neg hlen]
      exact ih hb hinv fun g' hg' x hx hxr => hgs g' (List.mem_cons_of_mem _ hg') x hx hxr

theorem hashGroupsAux_mono (md5 : List Nat → Nat) :
    ∀ (gs : List (Nat × List (FPath × FileInfo))) (hb : List (Nat × List (FPath × FileInfo)))
      (x : FPath × FileInfo), inBuckets x hb → inBuckets x (hashGroupsAux md5 hb gs).1 := by
  intro gs
  induction gs with
  | nil => intro hb x h; exact h
  | cons g rest ih =>
    intro hb x h
    obtain ⟨s, fl⟩ := g
    by_cases hlen : 1 < fl.length
    · simp only [hashGroupsAux, if_pos hlen]
      exact ih _ x (hashFilesAux_mono md5 fl hb x h)
    · simp only [hashGroupsAux, if_neg hlen]
      exact ih hb x h

theorem hashGroupsAux_mem_elim (md5 : List Nat → Nat) :
    ∀ (gs : List (Nat × List (FPath × FileInfo))) (hb : List (Nat × List (FPath × FileInfo)))
      (x : FPath × FileInfo), inBuckets x (hashGroupsAux md5 hb gs).1 →
      inBuckets x hb ∨ ∃ g ∈ gs, 1 < g.2.length ∧ x ∈ g.2 ∧ x.2.readable = true := by
  intro gs
  induction gs with
  | nil => intro hb x h; exact Or.inl h
  | cons g rest ih =>
    intro hb x h
    obtain ⟨s, fl⟩ := g
    by_cases hlen : 1 < fl.length
    · simp only [hashGroupsAux, if_pos hlen] at h
      rcases ih _ x h with h' | h'
      · rcases hashFilesAux_mem_elim md5 fl hb x h' with h'' | h''
        · exact Or.inl h''
        · exact Or.inr ⟨(s, fl), List.mem_cons_self _ _, hlen, h''.1, h''.2⟩
      · obtain ⟨g', hg', hl', hx', hr'⟩ := h'
        exact Or.inr ⟨g', List.mem_cons_of_mem _ hg', hl', hx', hr'⟩
    · simp only [hashGroupsAux, if_neg hlen] at h
      rcases ih hb x h with h' | h'
      · exact Or.inl h'
      · obtain ⟨g', hg', hl', hx', hr'⟩ := h'
        exact Or.inr ⟨g', List.mem_cons_of_mem _ hg', hl', hx', hr'⟩

theorem hashGroupsAux_complete (md5 : List Nat → Nat) :
    ∀ (gs : List (Nat × List (FPath × FileInfo))) (hb : List (Nat × List (FPath × FileInfo)))
      (g : Nat × List (FPath × FileInfo)), g ∈ gs → 1 < g.2.length →
      ∀ x ∈ g.2, x.2.readable = true → inBuckets x (hashGroupsAux md5 hb gs).1 := by
  intro gs
  induction gs with
  | nil => intro hb g h; exact absurd h (List.not_mem_nil g)
  | cons g₀ rest ih =>
    intro hb g hg hlen x hx hxr
    obtain ⟨s, fl⟩ := g₀
    rcases List.mem_cons.mp hg with h | h
    · subst h
      simp only [hashGroupsAux, if_pos hlen]
      exact hashGroupsAux_mono md5 rest _ x (hashFilesAux_complete md5 fl hb x hx hxr)
    · by_cases hl : 1 < fl.length
      · simp only [hashGroupsAux, if_pos hl]
        exact ih _ g h hlen x hx hxr
      · simp only [hashGroupsAux, if_neg hl]
        exact ih hb g h hlen x hx hxr

theorem hashGroupsAux_countP_le (md5 : List Nat → Nat) (p : FPath) :
    ∀ (gs : List (Nat × List (FPath × FileInfo))) (hb : List (Nat × List (FPath × FileInfo))),
      bucketCountP p (hashGroupsAux md5 hb gs).1 ≤ bucketCountP p hb + bucketCountP p gs := by
  intro gs
  induction gs with
  | nil => intro hb; simp [hashGroupsAux]
  | cons g rest ih =>
    intro hb
    obtain ⟨s, fl⟩ := g
    have hmono : (fl.countP fun x => x.2.readable && decide (x.1 = p)) ≤
        fl.countP fun x => decide (x.1 = p) := by
      refine List.countP_mono_left ?_
      intro a _ ha
      exact (Bool.and_eq_true _ _ |>.mp ha).2
    by_cases hlen : 1 < fl.length
    · simp only [hashGroupsAux, if_pos hlen]
      calc bucketCountP p (hashGroupsAux md5 (hashFilesAux md5 hb fl).1 rest).1
          ≤ bucketCountP p (hashFilesAux md5 hb fl).1 + bucketCountP p rest := ih _
        _ = bucketCountP p hb + (fl.countP fun x => x.2.readable && decide (x.1 = p))
              + bucketCountP p rest := by rw [hashFilesAux_countP]
        _ ≤ bucketCountP p hb + bucketCountP p ((s, fl) :: rest) := by
              simp only [bucketCountP, List.map_cons, List.sum_cons]
              omega
    · simp only [hashGroupsAux, if_neg hlen]
      calc bucketCountP p (hashGroupsAux md5 hb rest).1
          ≤ bucketCountP p hb + bucketCountP p rest := ih hb
        _ ≤ bucketCountP p hb + bucketCountP p ((s, fl) :: rest) := by
              simp only [bucketCountP, List.map_cons, List.sum_cons]
              omega

/-! ### Structural facts about the assembled pipeline -/

theorem sizeBuckets_inv (root : Entry) (minSize : Nat) :
    BucketsInv (fun s x => x.2.statable = true ∧ minSize ≤ x.2.size ∧ x.2.size = s)
      (sizeBuckets root minSize) := by
  refine groupBySizeAux_fst_invP minSize (walkEntry [] root) []
    (fun b hb => absurd hb (List.not_mem_nil b)) ?_
  intro x _ hc
  simp only [isCandidate, Bool.and_eq_true, decide_eq_true_eq] at hc
  exact ⟨hc.1, hc.2, rfl⟩

theorem sizeBuckets_keysNodup (root : Entry) (minSize : Nat) :
    (bucketKeys (sizeBuckets root minSize)).Nodup :=
  groupBySizeAux_keysNodup minSize (walkEntry [] root) [] List.nodup_nil

theorem sizeBuckets_mem_walked {root : Entry} {minSize : Nat} {x : FPath × FileInfo}
    (h : inBuckets x (sizeBuckets root minSize)) :
    x ∈ walkEntry [] root ∧ isCandidate minSize x = true := by
  rcases groupBySizeAux_mem_elim minSize (walkEntry [] root) [] x h with h' | h'
  · obtain ⟨b, hb, _⟩ := h'
    exact absurd hb (List.not_mem_nil b)
  · exact h'

theorem sizeBuckets_bucket_unique {root : Entry} {minSize : Nat}
    {g g' : Nat × List (FPath × FileInfo)} (hg : g ∈ sizeBuckets root minSize)
    (hg' : g' ∈ sizeBuckets root minSize) (hk : g.1 = g'.1) : g = g' :=
  List.inj_on_of_nodup_map (sizeBuckets_keysNodup root minSize) hg hg' hk

theorem hashBuckets_inv (md5 : List Nat → Nat) (root : Entry) (minSize : Nat) :
    BucketsInv (fun k x => md5 x.2.content = k ∧ x.2.readable = true)
      (hashBuckets md5 root minSize) := by
  refine hashGroupsAux_fst_invP md5 (sizeBuckets root minSize) []
    (fun b hb => absurd hb (List.not_mem_nil b)) ?_
  intro g _ x _ hr
  exact ⟨rfl, hr⟩

theorem hashBuckets_mem_from_group {md5 : List Nat → Nat} {root : Entry} {minSize : Nat}
    {x : FPath × FileInfo} (h : inBuckets x (hashBuckets md5 root minSize)) :
    ∃ g ∈ sizeBuckets root minSize, 1 < g.2.length ∧ x ∈ g.2 ∧ x.2.readable = true := by
  rcases hashGroupsAux_mem_elim md5 (sizeBuckets root minSize) [] x h with h' | h'
  · obtain ⟨b, hb, _⟩ := h'
    exact absurd hb (List.not_mem_nil b)
  · exact h'

theorem duplicateClusters_sub {md5 : List Nat → Nat} {root : Entry} {minSize : Nat}
    {cl : Nat × List (FPath × FileInfo)} (h : cl ∈ duplicateClusters md5 root minSize) :
    cl ∈ hashBuckets md5 root minSize ∧ 1 < cl.2.length := by
  have h' := List.mem_filter.mp h
  exact ⟨h'.1, by simpa using h'.2⟩

theorem reportClusters_no_warn (hb : List (Nat × List (FPath × FileInfo))) :
    ∀ e ∈ reportClusters hb, Ev.isWarn e = false := by
  intro e he
  simp only [reportClusters] at he
  by_cases hc : (hb.filterMap fun b =>
      if 1 < b.2.length then some (Ev.cluster b.1 b.2) else none).isEmpty
  · rw [if_pos hc] at he
    simp only [List.mem_singleton] at he
    subst he
    rfl
  · rw [if_neg hc] at he
    obtain ⟨b, _, hbe⟩ := List.mem_filterMap.mp he
    by_cases hl : 1 < b.2.length
    · rw [if_pos hl] at hbe
      cases hbe
      rfl
    · rw [if_neg hl] at hbe
      cases hbe

theorem reportClusters_shape (hb : List (Nat × List (FPath × FileInfo))) :
    ∀ e ∈ reportClusters hb, Ev.isClusterEv e = true ∨ e = Ev.noDup := by
  intro e he
  simp only [reportClusters] at he
  by_cases hc : (hb.filterMap fun b =>
      if 1 < b.2.length then some (Ev.cluster b.1 b.2) else none).isEmpty
  · rw [if_pos hc] at he
    simp only [List.mem_singleton] at he
    exact Or.inr he
  · rw [if_neg hc] at he
    obtain ⟨b, _, hbe⟩ := List.mem_filterMap.mp he
    by_cases hl : 1 < b.2.length
    · rw [if_pos hl] at hbe
      cases hbe
      exact Or.inl rfl
    · rw [if_neg hl] at hbe
      cases hbe

/-! ### Helper lemmas about paths and counts -/

theorem path_unique {l : List (FPath × FileInfo)} (hnd : pathsNodup l)
    {x y : FPath × FileInfo} (hx : x ∈ l) (hy : y ∈ l) (hxy : x.1 = y.1) : x = y :=
  List.inj_on_of_nodup_map hnd hx hy hxy

theorem countP_path_le_one {p : FPath} :
    ∀ {l : List (FPath × FileInfo)}, pathsNodup l →
      (l.countP fun x => decide (x.1 = p)) ≤ 1 := by
  intro l
  induction l with
  | nil => intro _; simp
  | cons y rest ih =>
    intro hnd
    simp only [pathsNodup, pathsOf, List.map_cons, List.nodup_cons] at hnd
    obtain ⟨hy, hnd'⟩ := hnd
    rw [List.countP_cons]
    by_cases hp : y.1 = p
    · have h0 : rest.countP (fun x => decide (x.1 = p)) = 0 := by
        refine List.countP_eq_zero.mpr ?_
        intro x hx hxp
        simp only [decide_eq_true_eq] at hxp
        apply hy
        rw [hp, ← hxp]
        exact List.mem_map_of_mem Prod.fst hx
      simp [hp, h0]
    · simpa [hp] using ih hnd'

theorem countP_path_eq_one {l : List (FPath × FileInfo)} {p : FPath} {i : FileInfo}
    (hnd : pathsNodup l) (hmem : (p, i) ∈ l) :
    (l.countP fun x => decide (x.1 = p)) = 1 := by
  have hle := countP_path_le_one (p := p) hnd
  have hpos : 0 < l.countP fun x => decide (x.1 = p) :=
    List.countP_pos_iff.mpr ⟨(p, i), hmem, by simp⟩
  omega

theorem bucket_countP_le_bucketCountP {p : FPath} {b : Nat × List (FPath × FileInfo)} :
    ∀ {bs : List (Nat × List (FPath × FileInfo))}, b ∈ bs →
      (b.2.countP fun x => decide (x.1 = p)) ≤ bucketCountP p bs := by
  intro bs
  induction bs with
  | nil => intro h; exact absurd h (List.not_mem_nil b)
  | cons b₀ rest ih =>
    intro h
    rcases List.mem_cons.mp h with h | h
    · subst h
      simp only [bucketCountP, List.map_cons, List.sum_cons]
      omega
    · have h' := ih h
      simp only [bucketCountP, List.map_cons, List.sum_cons]
      simp only [bucketCountP] at h'
      omega

theorem bucketCountP_filter_le (p : FPath) (q : Nat × List (FPath × FileInfo) → Bool) :
    ∀ bs : List (Nat × List (FPath × FileInfo)),
      bucketCountP p (bs.filter q) ≤ bucketCountP p bs := by
  intro bs
  induction bs with
  | nil => simp [bucketCountP]
  | cons b rest ih =>
    by_cases hq : q b
    · simp only [List.filter_cons, if_pos hq, bucketCountP, List.map_cons, List.sum_cons]
      simp only [bucketCountP] at ih
      omega
    · simp only [List.filter_cons, if_neg hq, bucketCountP, List.map_cons, List.sum_cons]
      simp only [bucketCountP] at ih
      omega

theorem countP_mem_le_bucketCountP (p : FPath) :
    ∀ bs : List (Nat × List (FPath × FileInfo)),
      (bs.countP fun b => decide (p ∈ pathsOf b.2)) ≤ bucketCountP p bs := by
  intro bs
  induction bs with
  | nil => simp [bucketCountP]
  | cons b rest ih =>
    rw [List.countP_cons]
    simp only [bucketCountP, List.map_cons, List.sum_cons]
    simp only [bucketCountP] at ih
    by_cases hp : p ∈ pathsOf b.2
    · obtain ⟨x, hx, hxp⟩ := List.mem_map.mp hp
      have hpos : 0 < b.2.countP fun x => decide (x.1 = p) :=
        List.countP_pos_iff.mpr ⟨x, hx, by simp [hxp]⟩
      simp only [hp, decide_eq_true_eq, if_true, iff_true]
      simp [hp]
      omega
    · simp [hp]
      omega

theorem one_lt_length_of_two_mem {α : Type} {l : List α} {x y : α}
    (hx : x ∈ l) (hy : y ∈ l) (hxy : x ≠ y) : 1 < l.length := by
  match l with
  | [] => exact absurd hx (List.not_mem_nil x)
  | [a] =>
    simp only [List.mem_singleton] at hx hy
    exact absurd (hx.trans hy.symm) hxy
  | a :: b :: t => simp [List.length_cons]

/-! ### The shared hash map versus the per-size-group construction -/

theorem hashFilesAux_keysNodup (md5 : List Nat → Nat) :
    ∀ (l : List (FPath × FileInfo)) (hb : List (Nat × List (FPath × FileInfo))),
      (bucketKeys hb).Nodup → (bucketKeys (hashFilesAux md5 hb l).1).Nodup := by
  intro l
  induction l with
  | nil => intro hb h; exact h
  | cons y rest ih =>
    intro hb h
    obtain ⟨p, i⟩ := y
    by_cases hr : i.readable
    · simp only [hashFilesAux, if_pos hr]
      refine ih _ ?_
      rw [bucketKeys_addToBucket]
      by_cases hmem : md5 i.content ∈ bucketKeys hb
      · simpa [hmem] using h
      · simp only [if_neg hmem]
        rw [List.nodup_append]
        refine ⟨h, List.nodup_singleton _, ?_⟩
        intro y hy hy2
        simp only [List.mem_singleton] at hy2
        subst hy2
        exact hmem hy
    · simp only [hashFilesAux, if_neg hr]
      exact ih hb h

theorem hashGroupsAux_keysNodup (md5 : List Nat → Nat) :
    ∀ (gs hb : List (Nat × List (FPath × FileInfo))),
      (bucketKeys hb).Nodup → (bucketKeys (hashGroupsAux md5 hb gs).1).Nodup := by
  intro gs
  induction gs with
  | nil => intro hb h; exact h
  | cons g rest ih =>
    intro hb h
    obtain ⟨s, fl⟩ := g
    by_cases hlen : 1 < fl.length
    · simp only [hashGroupsAux, if_pos hlen]
      exact ih _ (hashFilesAux_keysNodup md5 fl hb h)
    · simp only [hashGroupsAux, if_neg hlen]
      exact ih hb h

theorem hashBuckets_keysNodup (md5 : List Nat → Nat) (root : Entry) (minSize : Nat) :
    (bucketKeys (hashBuckets md5 root minSize)).Nodup :=
  hashGroupsAux_keysNodup md5 (sizeBuckets root minSize) [] List.nodup_nil

theorem hashBuckets_bucket_unique {md5 : List Nat → Nat} {root : Entry} {minSize : Nat}
    {b b' : Nat × List (FPath × FileInfo)} (hb : b ∈ hashBuckets md5 root minSize)
    (hb' : b' ∈ hashBuckets md5 root minSize) (hk : b.1 = b'.1) : b = b' :=
  List.inj_on_of_nodup_map (hashBuckets_keysNodup md5 root minSize) hb hb' hk

theorem addToBucket_append {α : Type} (k : Nat) (v : α) :
    ∀ (hb cs : List (Nat × List α)), k ∉ bucketKeys hb →
      addToBucket (hb ++ cs) k v = hb ++ addToBucket cs k v := by
  intro hb
  induction hb with
  | nil => intro cs _; rfl
  | cons b rest ih =>
    intro cs hk
    obtain ⟨k₀, vs⟩ := b
    simp only [bucketKeys, List.map_cons, List.mem_cons] at hk
    push_neg at hk
    have hne : k₀ ≠ k := fun h => hk.1 h.symm
    simp only [List.cons_append, addToBucket, if_neg hne]
    exact congrArg (List.cons (k₀, vs)) (ih cs (by simpa [bucketKeys] using hk.2))

theorem hashFilesAux_fst_append (md5 : List Nat → Nat) :
    ∀ (l : List (FPath × FileInfo)) (hb cs : List (Nat × List (FPath × FileInfo))),
      (∀ x ∈ l, md5 x.2.content ∉ bucketKeys hb) →
      (hashFilesAux md5 (hb ++ cs) l).1 = hb ++ (hashFilesAux md5 cs l).1 := by
  intro l
  induction l with
  | nil => intro hb cs _; rfl
  | cons y rest ih =>
    intro hb cs hfresh
    obtain ⟨p, i⟩ := y
    by_cases hr : i.readable
    · simp only [hashFilesAux, if_pos hr]
      rw [addToBucket_append _ _ hb cs (hfresh (p, i) (List.mem_cons_self _ _))]
      exact ih hb _ fun x hx => hfresh x (List.mem_cons_of_mem _ hx)
    · simp only [hashFilesAux, if_neg hr]
      exact ih hb cs fun x hx => hfresh x (List.mem_cons_of_mem _ hx)

theorem hashFilesAux_keys_sub (md5 : List Nat → Nat) :
    ∀ (l : List (FPath × FileInfo)) (cs : List (Nat × List (FPath × FileInfo))) (k : Nat),
      k ∈ bucketKeys (hashFilesAux md5 cs l).1 →
      k ∈ bucketKeys cs ∨ ∃ x ∈ l, md5 x.2.content = k := by
  intro l
  induction l with
  | nil => intro cs k h; exact Or.inl h
  | cons y rest ih =>
    intro cs k h
    obtain ⟨p, i⟩ := y
    by_cases hr : i.readable
    · simp only [hashFilesAux, if_pos hr] at h
      rcases ih _ k h with h' | h'
      · rw [bucketKeys_addToBucket] at h'
        by_cases hm : md5 i.content ∈ bucketKeys cs
        · rw [if_pos hm] at h'
          exact Or.inl h'
        · rw [if_neg hm] at h'
          rcases List.mem_append.mp h' with h'' | h''
          · exact Or.inl h''
          · simp only [List.mem_singleton] at h''
            exact Or.inr ⟨(p, i), List.mem_cons_self _ _, h''.symm⟩
      · obtain ⟨x, hx, hxk⟩ := h'
        exact Or.inr ⟨x, List.mem_cons_of_mem _ hx, hxk⟩
    · simp only [hashFilesAux, if_neg hr] at h
      rcases ih cs k h with h' | h'
      · exact Or.inl h'
      · obtain ⟨x, hx, hxk⟩ := h'
        exact Or.inr ⟨x, List.mem_cons_of_mem _ hx, hxk⟩

theorem hashGroupsAux_eq_perGroup (md5 : List Nat → Nat) (hresp : SizeRespecting md5) :
    ∀ (gs hb : List (Nat × List (FPath × FileInfo))),
      (∀ g ∈ gs, ∀ x ∈ g.2, x.2.size = g.1) →
      (bucketKeys gs).Nodup →
      (∀ b ∈ hb, ∀ g ∈ gs, ∀ x ∈ g.2, md5 x.2.content ≠ b.1) →
      (hashGroupsAux md5 hb gs).1 = hb ++ hashGroupsPerGroup md5 gs := by
  intro gs
  induction gs with
  | nil => intro hb _ _ _; simp [hashGroupsAux, hashGroupsPerGroup]
  | cons g rest ih =>
    intro hb hsz hnd hfresh
    obtain ⟨s, fl⟩ := g
    simp only [bucketKeys, List.map_cons, List.nodup_cons] at hnd
    obtain ⟨hsk, hnd'⟩ := hnd
    have hsz' : ∀ g' ∈ rest, ∀ x ∈ g'.2, x.2.size = g'.1 :=
      fun g' hg' x hx => hsz g' (List.mem_cons_of_mem _ hg') x hx
    by_cases hlen : 1 < fl.length
    · simp only [hashGroupsAux, if_pos hlen, hashGroupsPerGroup]
      have hfl_fresh : ∀ x ∈ fl, md5 x.2.content ∉ bucketKeys hb := by
        intro x hx hmem
        obtain ⟨b, hbm, hbk⟩ := List.mem_map.mp hmem
        exact hfresh b hbm (s, fl) (List.mem_cons_self _ _) x hx hbk.symm
      have hsplit : (hashFilesAux md5 hb fl).1 = hb ++ (hashFilesAux md5 [] fl).1 := by
        have h := hashFilesAux_fst_append md5 fl hb [] hfl_fresh
        simpa using h
      have hfresh' : ∀ b ∈ hb ++ (hashFilesAux md5 [] fl).1, ∀ g' ∈ rest, ∀ x ∈ g'.2,
          md5 x.2.content ≠ b.1 := by
        intro b hbm g' hg' x hx heq
        rcases List.mem_append.mp hbm with hbm | hbm
        · exact hfresh b hbm g' (List.mem_cons_of_mem _ hg') x hx heq
        · have hkmem : b.1 ∈ bucketKeys (hashFilesAux md5 [] fl).1 :=
            List.mem_map_of_mem Prod.fst hbm
          rcases hashFilesAux_keys_sub md5 fl [] b.1 hkmem with h' | h'
          · simp [bucketKeys] at h'
          · obtain ⟨y, hy, hyk⟩ := h'
            have hlength : x.2.content.length = y.2.content.length :=
              hresp _ _ (heq.trans hyk.symm)
            have hx_size : x.2.size = g'.1 := hsz' g' hg' x hx
            have hy_size : y.2.size = s := hsz (s, fl) (List.mem_cons_self _ _) y hy
            have : g'.1 = s := by
              rw [← hx_size, ← hy_size]
              simpa [FileInfo.size] using hlength
            apply hsk
            rw [← this]
            exact List.mem_map_of_mem Prod.fst hg'
      rw [hsplit, ih (hb ++ (hashFilesAux md5 [] fl).1) hsz' hnd' hfresh',
        List.append_assoc]
    · simp only [hashGroupsAux, if_neg hlen, hashGroupsPerGroup, if_neg hlen]
      exact ih hb hsz' hnd'
        fun b hbm g' hg' x hx => hfresh b hbm g' (List.mem_cons_of_mem _ hg') x hx

theorem hashBuckets_eq_perGroup (md5 : List Nat → Nat) (root : Entry) (minSize : Nat)
    (hresp : SizeRespecting md5) :
    hashBuckets md5 root minSize = hashGroupsPerGroup md5 (sizeBuckets root minSize) := by
  have h := hashGroupsAux_eq_perGroup md5 hresp (sizeBuckets root minSize) []
    (fun g hg x hx => (sizeBuckets_inv root minSize g hg x hx).2.2)
    (sizeBuckets_keysNodup root minSize)
    (fun b hb => absurd hb (List.not_mem_nil b))
  simpa [hashBuckets] using h

theorem isWarnFor_false_of_isWarn_false {p : FPath} {e : Ev} (h : Ev.isWarn e = false) :
    Ev.isWarnFor p e = false := by
  cases e <;> simp [Ev.isWarn, Ev.isWarnFor] at h ⊢

theorem duplicatesRun_decomp (md5 : List Nat → Nat) (root : Entry) (minSize : Nat) :
    duplicatesRun md5 root minSize =
      (groupBySizeAux minSize [] (walkEntry [] root)).2
      ++ (hashGroupsAux md5 [] (sizeBuckets root minSize)).2
      ++ reportClusters (hashBuckets md5 root minSize) := rfl

/-! ### Claim theorems -/

/-- C1, counterexample.  The claim states that any two files reported in the
same duplicate cluster have equal byte sizes (and equal digests).  Because
`files_by_hash` is one map shared across all size groups, a digest that
collides on two contents of different lengths puts files of different sizes
into a single reported cluster: with the digest that maps every content to 0,
scanning a directory holding two 1-byte files and two 2-byte files reports
one cluster whose members include a 1-byte and a 2-byte file. -/
theorem c1_counterexample :
    ∃ cl ∈ duplicateClusters (fun _ => 0) cexRootC1 1, ∃ x ∈ cl.2, ∃ y ∈ cl.2,
      x.2.size ≠ y.2.size := by decide

/-- C1 (amended): two distinct hashed candidates are reported together in a
cluster **iff** their full-content digests are equal; all files of one
cluster share one digest, and they also share one byte size whenever the
digest never identifies contents of different lengths. -/
theorem c1_cluster_digest_iff (md5 : List Nat → Nat) (root : Entry) (minSize : Nat)
    (x y : FPath × FileInfo) (hx : IsHashedCandidate root minSize x)
    (hy : IsHashedCandidate root minSize y) (hxy : x ≠ y) :
    ((∃ cl ∈ duplicateClusters md5 root minSize, x ∈ cl.2 ∧ y ∈ cl.2) ↔
      md5 x.2.content = md5 y.2.content)
    ∧ ∀ cl ∈ duplicateClusters md5 root minSize, ∀ a ∈ cl.2, ∀ b ∈ cl.2,
        md5 a.2.content = md5 b.2.content ∧ (SizeRespecting md5 → a.2.size = b.2.size) := by
  have hshare : ∀ cl ∈ duplicateClusters md5 root minSize, ∀ a ∈ cl.2, ∀ b ∈ cl.2,
      md5 a.2.content = md5 b.2.content ∧ (SizeRespecting md5 → a.2.size = b.2.size) := by
    intro cl hcl a ha b hb
    have hcl' := (duplicateClusters_sub hcl).1
    have hak := (hashBuckets_inv md5 root minSize cl hcl' a ha).1
    have hbk := (hashBuckets_inv md5 root minSize cl hcl' b hb).1
    have hdig : md5 a.2.content = md5 b.2.content := hak.trans hbk.symm
    refine ⟨hdig, fun hresp => ?_⟩
    simpa [FileInfo.size] using hresp _ _ hdig
  refine ⟨⟨?_, ?_⟩, hshare⟩
  · rintro ⟨cl, hcl, hxcl, hycl⟩
    exact (hshare cl hcl x hxcl y hycl).1
  · intro hdig
    obtain ⟨⟨gx, hgx, hlx, hxg⟩, hxr⟩ := hx
    obtain ⟨⟨gy, hgy, hly, hyg⟩, hyr⟩ := hy
    obtain ⟨b1, hb1, hxb⟩ :=
      hashGroupsAux_complete md5 (sizeBuckets root minSize) [] gx hgx hlx x hxg hxr
    obtain ⟨b2, hb2, hyb⟩ :=
      hashGroupsAux_complete md5 (sizeBuckets root minSize) [] gy hgy hly y hyg hyr
    have hk1 : md5 x.2.content = b1.1 := (hashBuckets_inv md5 root minSize b1 hb1 x hxb).1
    have hk2 : md5 y.2.content = b2.1 := (hashBuckets_inv md5 root minSize b2 hb2 y hyb).1
    have hbb : b1 = b2 :=
      hashBuckets_bucket_unique hb1 hb2 (hk1.symm.trans (hdig.trans hk2))
    subst hbb
    have hlen : 1 < b1.2.length := one_lt_length_of_two_mem hxb hyb hxy
    exact ⟨b1, List.mem_filter.mpr ⟨hb1, by simpa using hlen⟩, hxb, hyb⟩

/-- C1 witness: Scenario A under the length digest; `a.txt` and `b.txt` are
distinct hashed candidates with equal digests, so the equivalence applies. -/
theorem c1_cluster_digest_iff_witness :
    ((∃ cl ∈ duplicateClusters lenDigest scenarioARoot 1,
        (["d", "a.txt"], FileInfo.mk contentX true true) ∈ cl.2 ∧
        (["d", "b.txt"], FileInfo.mk contentX true true) ∈ cl.2) ↔
      lenDigest contentX = lenDigest contentX)
    ∧ ∀ cl ∈ duplicateClusters lenDigest scenarioARoot 1, ∀ a ∈ cl.2, ∀ b ∈ cl.2,
        lenDigest a.2.content = lenDigest b.2.content
        ∧ (SizeRespecting lenDigest → a.2.size = b.2.size) :=
  c1_cluster_digest_iff lenDigest scenarioARoot 1
    (["d", "a.txt"], FileInfo.mk contentX true true)
    (["d", "b.txt"], FileInfo.mk contentX true true)
    (by decide) (by decide) (by decide)

/-- C2, counterexample.  The fingerprint map is not built separately per size
group: `files_by_hash` is created once, before the loop over size groups, so
fingerprints of files in different size groups land in the same map.  Under a
first-byte digest, two size-1 files and two size-2 files that share their
first byte are merged into one four-member cluster, which the per-group
construction described by the spec would report as two clusters. -/
theorem c2_counterexample :
    duplicateClusters headDigest cexRootC2 1 ≠ duplicateClustersPerGroup headDigest cexRootC2 1
    ∧ ∃ cl ∈ duplicateClusters headDigest cexRootC2 1, ∃ x ∈ cl.2, ∃ y ∈ cl.2,
        x.2.size ≠ y.2.size := by decide

/-- C2 (amended): the code builds one fingerprint map shared across all size
groups, so files of different size groups can be merged into one cluster
when their digests collide; whenever the digest never identifies contents of
different lengths, the shared map reports exactly the clusters of the
per-size-group construction the spec describes. -/
theorem c2_per_group_eq_of_size_respecting (md5 : List Nat → Nat) (root : Entry)
    (minSize : Nat) (hresp : SizeRespecting md5) :
    duplicateClusters md5 root minSize = duplicateClustersPerGroup md5 root minSize := by
  unfold duplicateClusters duplicateClustersPerGroup
  rw [hashBuckets_eq_perGroup md5 root minSize hresp]

/-- C2 witness: the length digest is size-respecting, and on the C2 tree the
shared-map clusters coincide with the per-group clusters. -/
theorem c2_per_group_eq_witness :
    SizeRespecting lenDigest
    ∧ duplicateClusters lenDigest cexRootC2 1 = duplicateClustersPerGroup lenDigest cexRootC2 1 :=
  ⟨fun a b h => h, c2_per_group_eq_of_size_respecting lenDigest cexRootC2 1 fun a b h => h⟩

/-- C4: the command exits successfully exactly when the root argument exists
and is readable — regardless of whether duplicates were found and regardless
of any per-file or per-directory warnings — and when it fails the scan never
starts (no events are emitted).  The root check is `click.Path(exists=True)`,
which verifies existence and readability before the command body runs. -/
theorem c4_exit_code (md5 : List Nat → Nat) (minSize : Nat) :
    ∀ root : Option Entry,
      ((duplicatesCmd md5 root minSize).1 = 0 ↔
        ∃ e, root = some e ∧ e.rootReadable = true)
      ∧ ((duplicatesCmd md5 root minSize).1 ≠ 0 →
        (duplicatesCmd md5 root minSize).2 = []) := by
  intro root
  match root with
  | none => simp [duplicatesCmd]
  | some e =>
    by_cases hr : e.rootReadable
    · simp [duplicatesCmd, hr]
    · simp [duplicatesCmd, hr]

/-- C3, counterexample.  The claim says an entry that cannot be listed gets
exactly one warning.  `os.walk` is invoked with its default `onerror=None`,
so an unlistable subdirectory is skipped with **no** warning: this tree
contains the unlistable directory `locked`, its siblings are still scanned
(and even reported as duplicates), yet the scan emits zero warnings. -/
theorem c3_counterexample :
    cexRootC3 = Entry.dir "r" true
        [Entry.dir "locked" false [Entry.file "hidden" ⟨[0, 0], true, true⟩],
         Entry.file "sib" ⟨[1], true, true⟩,
         Entry.file "sib2" ⟨[1], true, true⟩]
    ∧ ((duplicatesRun (fun _ => 0) cexRootC3 1).countP Ev.isWarn) = 0
    ∧ (["r", "sib"], (⟨[1], true, true⟩ : FileInfo)) ∈ walkEntry [] cexRootC3 :=
  ⟨rfl, by decide, by decide⟩

/-- C3 (amended): a file entry whose `stat` fails is recorded with exactly
one warning and traversal continues, while an unlistable subdirectory is
skipped silently — it contributes no files and no warning — and its sibling
entries are still scanned. -/
theorem c3_stat_failure_one_warning (md5 : List Nat → Nat) (root : Entry) (minSize : Nat)
    (p : FPath) (i : FileInfo) (hnd : pathsNodup (walkEntry [] root))
    (hmem : (p, i) ∈ walkEntry [] root) (hstat : i.statable = false) :
    ((duplicatesRun md5 root minSize).countP (Ev.isWarnFor p)) = 1
    ∧ ∀ (base : FPath) (n : String) (es sib : List Entry),
        walkSubdirs base (Entry.dir n false es :: sib) = walkSubdirs base sib := by
  constructor
  · rw [duplicatesRun_decomp, List.countP_append, List.countP_append]
    have h1 : (groupBySizeAux minSize [] (walkEntry [] root)).2.countP (Ev.isWarnFor p) = 1 := by
      rw [groupBySizeAux_snd, List.countP_map, List.countP_filter]
      have hcongr : ((walkEntry [] root).countP fun a =>
          (Ev.isWarnFor p ∘ fun x => Ev.warnAccess x.1) a && !a.2.statable) =
          (walkEntry [] root).countP fun a => decide (a.1 = p) && !a.2.statable := by
        refine List.countP_congr ?_
        intro a _
        simp [Ev.isWarnFor]
      rw [hcongr]
      have hle : ((walkEntry [] root).countP fun a => decide (a.1 = p) && !a.2.statable) ≤
          (walkEntry [] root).countP fun a => decide (a.1 = p) :=
        List.countP_mono_left fun a _ h => (Bool.and_eq_true _ _ |>.mp h).1
      have hpos : 0 < (walkEntry [] root).countP fun a => decide (a.1 = p) && !a.2.statable :=
        List.countP_pos_iff.mpr ⟨(p, i), hmem, by simp [hstat]⟩
      have hone := countP_path_eq_one hnd hmem
      omega
    have h2 : (hashGroupsAux md5 [] (sizeBuckets root minSize)).2.countP (Ev.isWarnFor p) = 0 := by
      refine List.countP_eq_zero.mpr ?_
      intro e he hpe
      obtain ⟨g, hg, x, hx, hxr, rfl⟩ :=
        hashGroupsAux_snd_mem_elim md5 (sizeBuckets root minSize) [] e he
      have hxw := sizeBuckets_mem_walked ⟨g, hg, hx⟩
      have hxp : x.1 = p := by simpa [Ev.isWarnFor] using hpe
      have hxe : x = (p, i) := path_unique hnd hxw.1 hmem hxp
      have hs := hxw.2
      rw [hxe] at hs
      simp [isCandidate, hstat] at hs
    have h3 : (reportClusters (hashBuckets md5 root minSize)).countP (Ev.isWarnFor p) = 0 := by
      refine List.countP_eq_zero.mpr ?_
      intro e he hpe
      rw [isWarnFor_false_of_isWarn_false (reportClusters_no_warn _ e he)] at hpe
      cases hpe
    omega
  · intro base n es sib
    simp [walkSubdirs, walkEntry]

/-- C3 witness: a tree with an unstatable file and a statable sibling; the
unstatable file receives exactly one warning. -/
theorem c3_stat_failure_one_warning_witness :
    ((duplicatesRun (fun _ => 0) witRootC3 1).countP (Ev.isWarnFor ["r", "gone"])) = 1
    ∧ ∀ (base : FPath) (n : String) (es sib : List Entry),
        walkSubdirs base (Entry.dir n false es :: sib) = walkSubdirs base sib :=
  c3_stat_failure_one_warning (fun _ => 0) witRootC3 1 ["r", "gone"]
    ⟨[1, 2, 3], false, true⟩ (by decide) (by decide) (by decide)

/-- C5, counterexample.  The claim says a completed scan prints the clusters
first and a summary of warned paths after them, warnings being collected
rather than immediately surfaced.  In the code each warning is echoed to
stderr the moment it occurs, during the walk — before any cluster is
printed — and no summary follows: on this tree the trace is a warning
followed by a cluster. -/
theorem c5_counterexample :
    duplicatesRun (fun _ => 7) cexRootC5 1 =
      [Ev.warnAccess ["r", "u"],
       Ev.cluster 7 [(["r", "a"], ⟨[3], true, true⟩), (["r", "b"], ⟨[3], true, true⟩)]]
    ∧ Ev.isWarn (Ev.warnAccess ["r", "u"]) = true
    ∧ Ev.isClusterEv
        (Ev.cluster 7 [(["r", "a"], ⟨[3], true, true⟩), (["r", "b"], ⟨[3], true, true⟩)]) = true :=
  ⟨by decide, rfl, rfl⟩

/-- C5 (amended): warnings are emitted immediately as the phases run, so the
trace of a completed scan is the stat warnings of the walk, then the read
warnings of hashing, then the reported clusters (or the no-duplicates line);
nothing is printed after the clusters. -/
theorem c5_warnings_before_clusters (md5 : List Nat → Nat) (root : Entry) (minSize : Nat) :
    ∃ w1 w2 r, duplicatesRun md5 root minSize = w1 ++ w2 ++ r
      ∧ (∀ e ∈ w1, ∃ q, e = Ev.warnAccess q)
      ∧ (∀ e ∈ w2, ∃ q, e = Ev.warnRead q)
      ∧ (∀ e ∈ r, Ev.isClusterEv e = true ∨ e = Ev.noDup)
      ∧ (∀ e ∈ r, Ev.isWarn e = false) := by
  refine ⟨(groupBySizeAux minSize [] (walkEntry [] root)).2,
    (hashGroupsAux md5 [] (sizeBuckets root minSize)).2,
    reportClusters (hashBuckets md5 root minSize), rfl, ?_, ?_, ?_, ?_⟩
  · intro e he
    rw [groupBySizeAux_snd] at he
    obtain ⟨x, _, rfl⟩ := List.mem_map.mp he
    exact ⟨x.1, rfl⟩
  · intro e he
    obtain ⟨g, _, x, _, _, rfl⟩ := hashGroupsAux_snd_mem_elim md5 _ [] e he
    exact ⟨x.1, rfl⟩
  · exact reportClusters_shape _
  · exact reportClusters_no_warn _

/-- C6: a file of a qualifying size group that cannot be read is warned
about, lands in no hash bucket (hence, in no cluster), and the rest of its
group is still hashed — the failure aborts neither the group nor the scan. -/
theorem c6_read_failure_isolated (md5 : List Nat → Nat) (root : Entry) (minSize : Nat)
    (g : Nat × List (FPath × FileInfo)) (p : FPath) (i : FileInfo)
    (hg : g ∈ sizeBuckets root minSize) (hlen : 1 < g.2.length)
    (hmem : (p, i) ∈ g.2) (hread : i.readable = false) :
    Ev.warnRead p ∈ duplicatesRun md5 root minSize
    ∧ (∀ b ∈ hashBuckets md5 root minSize, (p, i) ∉ b.2)
    ∧ ∀ x ∈ g.2, x.2.readable = true → inBuckets x (hashBuckets md5 root minSize) := by
  refine ⟨?_, ?_, ?_⟩
  · have hw := hashGroupsAux_warn_mem md5 (sizeBuckets root minSize) [] g hg hlen
      (p, i) hmem hread
    rw [duplicatesRun_decomp]
    exact List.mem_append.mpr (Or.inl (List.mem_append.mpr (Or.inr hw)))
  · intro b hb hpb
    have hr := (hashBuckets_inv md5 root minSize b hb (p, i) hpb).2
    exact absurd hr (by simp [hread])
  · intro x hx hxr
    exact hashGroupsAux_complete md5 (sizeBuckets root minSize) [] g hg hlen x hx hxr

/-- C6 witness: a group of three same-size files, one unreadable; the other
two are still hashed and the unreadable one is warned about and excluded. -/
theorem c6_read_failure_isolated_witness :
    Ev.warnRead ["r", "bad"] ∈ duplicatesRun (fun _ => 0) witRootC6 1
    ∧ (∀ b ∈ hashBuckets (fun _ => 0) witRootC6 1,
        (["r", "bad"], (⟨[7], true, false⟩ : FileInfo)) ∉ b.2)
    ∧ ∀ x ∈ (1, [(["r", "bad"], (⟨[7], true, false⟩ : FileInfo)),
        (["r", "a"], (⟨[7], true, true⟩ : FileInfo)),
        (["r", "b"], (⟨[7], true, true⟩ : FileInfo))]).2,
        x.2.readable = true → inBuckets x (hashBuckets (fun _ => 0) witRootC6 1) :=
  c6_read_failure_isolated (fun _ => 0) witRootC6 1
    (1, [(["r", "bad"], ⟨[7], true, false⟩),
         (["r", "a"], ⟨[7], true, true⟩),
         (["r", "b"], ⟨[7], true, true⟩)])
    ["r", "bad"] ⟨[7], true, false⟩ (by decide) (by decide) (by decide) (by decide)

/-- C7: Scenario A — `a.txt` and `b.txt` hold the same 10 bytes, `c.txt`
holds 10 different bytes, threshold 1: the scan reports exactly one cluster,
whose members are `a.txt` and `b.txt` in walk order, and `c.txt` appears in
no cluster (the digest distinguishes the two contents). -/
theorem c7_scenario_a (md5 : List Nat → Nat) (hne : md5 contentX ≠ md5 contentY) :
    (duplicateClusters md5 scenarioARoot 1).map (fun cl => pathsOf cl.2) =
      [[["d", "a.txt"], ["d", "b.txt"]]] := by
  have hgs : sizeBuckets scenarioARoot 1 =
      [(10, [(["d", "a.txt"], ⟨contentX, true, true⟩),
             (["d", "b.txt"], ⟨contentX, true, true⟩),
             (["d", "c.txt"], ⟨contentY, true, true⟩)])] := by decide
  unfold duplicateClusters hashBuckets
  rw [hgs]
  simp [hashGroupsAux, hashFilesAux, addToBucket, hne, pathsOf]

/-- C7 witness: the first-byte digest separates content "X" from "Y". -/
theorem c7_scenario_a_witness :
    (duplicateClusters headDigest scenarioARoot 1).map (fun cl => pathsOf cl.2) =
      [[["d", "a.txt"], ["d", "b.txt"]]] :=
  c7_scenario_a headDigest (by decide)

/-- C8: only size groups with at least two members are forwarded to hashing
(no member of a singleton group ever reaches the hash map), and consequently
a file whose byte size occurs at most once among the walked files appears in
no reported cluster. -/
theorem c8_unique_size_unreported (md5 : List Nat → Nat) (root : Entry) (minSize : Nat)
    (p : FPath) (i : FileInfo)
    (huniq : ((walkEntry [] root).countP fun x => decide (x.2.size = i.size)) ≤ 1) :
    (∀ g ∈ sizeBuckets root minSize, ¬ 1 < g.2.length →
      ∀ x ∈ g.2, ¬ inBuckets x (hashBuckets md5 root minSize))
    ∧ ∀ cl ∈ duplicateClusters md5 root minSize, (p, i) ∉ cl.2 := by
  constructor
  · intro g hg hglen x hx hmem
    obtain ⟨g', hg', hlen', hx', _⟩ := hashBuckets_mem_from_group hmem
    have h1 : g.1 = x.2.size := ((sizeBuckets_inv root minSize g hg x hx).2.2).symm
    have h2 : g'.1 = x.2.size := ((sizeBuckets_inv root minSize g' hg' x hx').2.2).symm
    have hgg : g = g' := sizeBuckets_bucket_unique hg hg' (h1.trans h2.symm)
    rw [← hgg] at hlen'
    exact hglen hlen'
  · intro cl hcl hmem
    have hcl' := (duplicateClusters_sub hcl).1
    obtain ⟨g, hg, hlen, hx, _⟩ := hashBuckets_mem_from_group ⟨cl, hcl', hmem⟩
    have hkey : i.size = g.1 := (sizeBuckets_inv root minSize g hg (p, i) hx).2.2
    have hbs : g.2.length ≤ bucketSizeCount i.size (sizeBuckets root minSize) :=
      length_le_bucketSizeCount hg hkey.symm
    have heq := groupBySizeAux_sizeCount minSize i.size (walkEntry [] root) []
    have h0 : bucketSizeCount i.size ([] : List (Nat × List (FPath × FileInfo))) = 0 := rfl
    have hmono : ((walkEntry [] root).countP fun x =>
        isCandidate minSize x && decide (x.2.size = i.size)) ≤
        (walkEntry [] root).countP fun x => decide (x.2.size = i.size) :=
      List.countP_mono_left fun a _ h => (Bool.and_eq_true _ _ |>.mp h).2
    unfold sizeBuckets at hbs
    omega

/-- C8 witness: a file of unique size next to a duplicate pair of another
size is reported in no cluster. -/
theorem c8_unique_size_unreported_witness :
    (∀ g ∈ sizeBuckets witRootC8 1, ¬ 1 < g.2.length →
      ∀ x ∈ g.2, ¬ inBuckets x (hashBuckets (fun _ => 0) witRootC8 1))
    ∧ ∀ cl ∈ duplicateClusters (fun _ => 0) witRootC8 1,
        (["r", "solo"], (⟨[1, 2, 3], true, true⟩ : FileInfo)) ∉ cl.2 :=
  c8_unique_size_unreported (fun _ => 0) witRootC8 1 ["r", "solo"]
    ⟨[1, 2, 3], true, true⟩ (by decide)

/-- C9, counterexample.  The claim says a file below the minimum-size
threshold generates no warning.  The size check runs only after a successful
`getsize`: a 0-byte file whose `stat` fails is warned about even though its
size is far below the 1024-byte threshold. -/
theorem c9_counterexample :
    (FileInfo.mk [] false true).size < 1024
    ∧ duplicatesRun (fun _ => 0) cexRootC9 1024 = [Ev.warnAccess ["r", "u"], Ev.noDup] := by
  decide

/-- C9 (amended): a statable file below the minimum-size threshold enters no
size bucket, appears in no reported cluster and generates no warning; only
the stat warning, which fires before the size is known, can mention a
below-threshold file. -/
theorem c9_below_threshold_invisible (md5 : List Nat → Nat) (root : Entry) (minSize : Nat)
    (p : FPath) (i : FileInfo) (hnd : pathsNodup (walkEntry [] root))
    (hmem : (p, i) ∈ walkEntry [] root) (hstat : i.statable = true)
    (hsize : i.size < minSize) :
    (∀ b ∈ sizeBuckets root minSize, (p, i) ∉ b.2)
    ∧ (∀ cl ∈ duplicateClusters md5 root minSize, (p, i) ∉ cl.2)
    ∧ (duplicatesRun md5 root minSize).countP (Ev.isWarnFor p) = 0 := by
  have hnot : ∀ b ∈ sizeBuckets root minSize, (p, i) ∉ b.2 := by
    intro b hb hpb
    have hle : minSize ≤ i.size := (sizeBuckets_inv root minSize b hb (p, i) hpb).2.1
    omega
  refine ⟨hnot, ?_, ?_⟩
  · intro cl hcl hmem'
    have hcl' := (duplicateClusters_sub hcl).1
    obtain ⟨g, hg, _, hx, _⟩ := hashBuckets_mem_from_group ⟨cl, hcl', hmem'⟩
    exact hnot g hg hx
  · rw [duplicatesRun_decomp, List.countP_append, List.countP_append]
    have h1 : (groupBySizeAux minSize [] (walkEntry [] root)).2.countP (Ev.isWarnFor p) = 0 := by
      rw [groupBySizeAux_snd]
      refine List.countP_eq_zero.mpr ?_
      intro e he hpe
      obtain ⟨x, hxf, rfl⟩ := List.mem_map.mp he
      have hxmem := List.mem_filter.mp hxf
      have hxp : x.1 = p := by simpa [Ev.isWarnFor] using hpe
      have hxe : x = (p, i) := path_unique hnd hxmem.1 hmem hxp
      have hxs := hxmem.2
      rw [hxe] at hxs
      simp [hstat] at hxs
    have h2 : (hashGroupsAux md5 [] (sizeBuckets root minSize)).2.countP (Ev.isWarnFor p) = 0 := by
      refine List.countP_eq_zero.mpr ?_
      intro e he hpe
      obtain ⟨g, hg, x, hx, _, rfl⟩ :=
        hashGroupsAux_snd_mem_elim md5 (sizeBuckets root minSize) [] e he
      have hxp : x.1 = p := by simpa [Ev.isWarnFor] using hpe
      have hxw := sizeBuckets_mem_walked ⟨g, hg, hx⟩
      have hxe : x = (p, i) := path_unique hnd hxw.1 hmem hxp
      rw [hxe] at hx
      exact hnot g hg hx
    have h3 : (reportClusters (hashBuckets md5 root minSize)).countP (Ev.isWarnFor p) = 0 := by
      refine List.countP_eq_zero.mpr ?_
      intro e he hpe
      rw [isWarnFor_false_of_isWarn_false (reportClusters_no_warn _ e he)] at hpe
      cases hpe
    omega

/-- C9 witness: a 1-byte statable file under a 1024-byte threshold is in no
bucket, no cluster and no warning. -/
theorem c9_below_threshold_invisible_witness :
    (∀ b ∈ sizeBuckets witRootC9 1024, (["r", "tiny"], (⟨[5], true, true⟩ : FileInfo)) ∉ b.2)
    ∧ (∀ cl ∈ duplicateClusters (fun _ => 0) witRootC9 1024,
        (["r", "tiny"], (⟨[5], true, true⟩ : FileInfo)) ∉ cl.2)
    ∧ (duplicatesRun (fun _ => 0) witRootC9 1024).countP (Ev.isWarnFor ["r", "tiny"]) = 0 :=
  c9_below_threshold_invisible (fun _ => 0) witRootC9 1024 ["r", "tiny"]
    ⟨[5], true, true⟩ (by decide) (by decide) (by decide) (by decide)

/-- C10: when the walk yields each file path once, a path is appended to at
most one size bucket (at most once), hashed into at most one hash bucket (at
most once), and therefore occurs at most once inside at most one reported
duplicate cluster. -/
theorem c10_path_at_most_once (md5 : List Nat → Nat) (root : Entry) (minSize : Nat)
    (p : FPath) (hnd : pathsNodup (walkEntry [] root)) :
    bucketCountP p (sizeBuckets root minSize) ≤ 1
    ∧ bucketCountP p (hashBuckets md5 root minSize) ≤ 1
    ∧ (∀ cl ∈ duplicateClusters md5 root minSize,
        (cl.2.countP fun x => decide (x.1 = p)) ≤ 1)
    ∧ (duplicateClusters md5 root minSize).countP (fun cl => decide (p ∈ pathsOf cl.2)) ≤ 1 := by
  have h0 : bucketCountP p ([] : List (Nat × List (FPath × FileInfo))) = 0 := rfl
  have h1 : bucketCountP p (sizeBuckets root minSize) ≤ 1 := by
    have heq := groupBySizeAux_countP minSize p (walkEntry [] root) []
    have hmono : ((walkEntry [] root).countP fun x =>
        isCandidate minSize x && decide (x.1 = p)) ≤
        (walkEntry [] root).countP fun x => decide (x.1 = p) :=
      List.countP_mono_left fun a _ h => (Bool.and_eq_true _ _ |>.mp h).2
    have hp1 := countP_path_le_one (p := p) hnd
    unfold sizeBuckets
    omega
  have h2 : bucketCountP p (hashBuckets md5 root minSize) ≤ 1 := by
    have hle := hashGroupsAux_countP_le md5 p (sizeBuckets root minSize) []
    unfold hashBuckets
    omega
  have h3 : bucketCountP p (duplicateClusters md5 root minSize) ≤ 1 := by
    have hle := bucketCountP_filter_le p (fun b => 1 < b.2.length) (hashBuckets md5 root minSize)
    unfold duplicateClusters
    omega
  refine ⟨h1, h2, fun cl hcl => ?_, ?_⟩
  · have hle := bucket_countP_le_bucketCountP (p := p) hcl
    omega
  · have hle := countP_mem_le_bucketCountP p (duplicateClusters md5 root minSize)
    omega

/-- C10 witness: a concrete duplicate-free-path tree. -/
theorem c10_path_at_most_once_witness :
    bucketCountP ["r", "a"] (sizeBuckets witRootC6 1) ≤ 1
    ∧ bucketCountP ["r", "a"] (hashBuckets (fun _ => 0) witRootC6 1) ≤ 1
    ∧ (∀ cl ∈ duplicateClusters (fun _ => 0) witRootC6 1,
        (cl.2.countP fun x => decide (x.1 = ["r", "a"])) ≤ 1)
    ∧ (duplicateClusters (fun _ => 0) witRootC6 1).countP
        (fun cl => decide (["r", "a"] ∈ pathsOf cl.2)) ≤ 1 :=
  c10_path_at_most_once (fun _ => 0) witRootC6 1 ["r", "a"] (by decide)

end McliFiles
